import Mathlib

/-!
Verification of the dataset-scrubbing pass of `gray_remover.py`.

The script walks a fixed `split/category` directory layout, classifies each
image file as grayscale or not by sampling its first 100 pixels, and either
deletes the grayscale files, moves them into a mirrored backup tree, or (in
dry-run mode) only reports them.

Shallow embedding used here:
  * A decoded image is a list of `Pixel` triples, in raster order after the
    RGB conversion performed by `Image.open(...).convert('RGB')`; a file whose
    decode raises is `ImageFile.corrupt msg`.
  * A directory entry is either a sub-directory or a file together with its
    decode result.
  * The dataset filesystem is the set of split-directory names present at the
    root plus an association list from `(split, category)` paths to their
    entry lists; the backup filesystem is a root-exists flag, the set of
    created `(split, category)` directories and an association list of moved
    files keyed by `(split, category, filename)`.
  * Every `print` of the script becomes an `Event` in an output log.
-/

structure Pixel where
  r : Nat
  g : Nat
  b : Nat
deriving DecidableEq

/-- Result of decoding an image file: the RGB pixel list in raster order, or
a decode failure carrying the exception message. -/
inductive ImageFile where
  | ok (pixels : List Pixel)
  | corrupt (msg : String)
deriving DecidableEq

/-- An immediate entry of a category directory: a sub-directory or a file. -/
inductive Entry where
  | dir (name : String)
  | file (name : String) (data : ImageFile)
deriving DecidableEq

def Entry.name : Entry → String
  | .dir n => n
  | .file n _ => n

/-- Abstraction of the script's `print` outputs, one constructor per print
site of `gray_remover.py`. -/
inductive Event where
  | warnMissing (path : String)
  | processingCat (split cat : String)
  | decodeError (path msg : String)
  | wouldRemove (filename : String)
  | movingToBackup (filename : String)
  | removing (filename : String)
  | catSummary (split cat : String) (processed found : Nat)
  | datasetSummary (processed found : Nat)
  | dryRunNote
  | removedNote (count : Nat)
  | errorInvalidDir (path : String)
deriving DecidableEq

/-- Index of the last `'.'` in a character list, if any. -/
def lastDotIdx : List Char → Option Nat
  | [] => none
  | c :: cs =>
    match lastDotIdx cs with
    | some i => some (i + 1)
    | none => if c = '.' then some 0 else none

/-- `os.path.splitext(filename)[1].lower()` for a bare filename (no path
separators): the extension starts at the last dot, provided some earlier
character of the name is not a dot (so `.bashrc`-style names have no
extension); the result is lower-cased character by character. -/
def extOf (filename : String) : String :=
  let cs := filename.toList
  match lastDotIdx cs with
  | none => ""
  | some i =>
    if (cs.take i).any (fun c => c != '.') then
      String.mk ((cs.drop i).map Char.toLower)
    else ""

/-- `valid_extensions` from `process_dataset`. -/
def validExtensions : List String :=
  [".jpg", ".jpeg", ".png", ".bmp", ".tiff", ".gif", ".webp"]

/-- The fixed split iteration order `['train', 'val']`. -/
def splitOrder : List String := ["train", "val"]

/-- The fixed category iteration order `['rainy', 'cloudy', 'sunshine', 'sunrise']`. -/
def catOrder : List String := ["rainy", "cloudy", "sunshine", "sunrise"]

/-- `os.path.join` for a relative second component. -/
def joinPath (a b : String) : String := a ++ "/" ++ b

def catPathOf (datasetPath split cat : String) : String :=
  joinPath (joinPath datasetPath split) cat

/-- `is_grayscale`, value part: on a successful decode, check the first
`min(100, len(pixels))` pixels in raster order and return `False` as soon as
one has unequal channels; on a decode failure return `False`. -/
def is_grayscale : ImageFile → Bool
  | .ok pixels =>
    (pixels.take (min 100 pixels.length)).all (fun p => p.r == p.g && p.g == p.b)
  | .corrupt _ => false

/-- `is_grayscale`, output part: the `print(f"Error processing {path}: {e}")`
emitted from the `except` branch on a decode failure. -/
def grayscaleLog (path : String) : ImageFile → List Event
  | .ok _ => []
  | .corrupt e => [.decodeError path e]

abbrev CatKey := String × String
abbrev BkKey := String × String × String

/-- The backup filesystem: whether the backup root directory exists, which
`split/category` sub-directories have been created, and the moved files keyed
by `(split, category, filename)`. -/
structure Backup where
  rootExists : Bool
  catDirs : List CatKey
  files : List (BkKey × ImageFile)
deriving DecidableEq

abbrev CatMap := List (CatKey × List Entry)

/-- The dataset filesystem: the split-directory names present at the root and
the present category directories with their entries. -/
structure Dataset where
  splits : List String
  cats : CatMap
deriving DecidableEq

def lookupCat : CatMap → CatKey → Option (List Entry)
  | [], _ => none
  | (k, v) :: rest, key => if k = key then some v else lookupCat rest key

def setCat : CatMap → CatKey → List Entry → CatMap
  | [], key, v => [(key, v)]
  | (k, w) :: rest, key, v =>
    if k = key then (key, v) :: rest else (k, w) :: setCat rest key v

def lookupBk : List (BkKey × ImageFile) → BkKey → Option ImageFile
  | [], _ => none
  | (k, v) :: rest, key => if k = key then some v else lookupBk rest key

def setBk : List (BkKey × ImageFile) → BkKey → ImageFile → List (BkKey × ImageFile)
  | [], key, v => [(key, v)]
  | (k, w) :: rest, key, v =>
    if k = key then (key, v) :: rest else (k, w) :: setBk rest key v

def addCatDir (dirs : List CatKey) (key : CatKey) : List CatKey :=
  if key ∈ dirs then dirs else dirs ++ [key]

/-- `os.makedirs(backup_category_path, exist_ok=True)` followed by
`shutil.move(file_path, backup_path)`.  `shutil.move` onto an existing
destination file overwrites it (`os.rename` semantics), so the file map
replaces any previous data stored under the same key. -/
def moveToBackup (bk : Backup) (split cat filename : String) (d : ImageFile) : Backup :=
  { rootExists := true,
    catDirs := addCatDir bk.catDirs (split, cat),
    files := setBk bk.files (split, cat, filename) d }

/-- Result of the per-category file loop: the entries remaining in the
category directory, the two counters, the backup filesystem and the log. -/
structure CatResult where
  entries : List Entry
  processed : Nat
  removed : Nat
  bk : Backup
  log : List Event
deriving DecidableEq

/-- The `for filename in os.listdir(category_path)` loop of `process_dataset`:
skip sub-directories and files without a valid image extension, count the
rest, and delete / move / report the grayscale ones. -/
def scrubFiles (hb dry : Bool) (catPath split cat : String) :
    List Entry → Backup → CatResult
  | [], bk => ⟨[], 0, 0, bk, []⟩
  | Entry.dir n :: es, bk =>
    let r := scrubFiles hb dry catPath split cat es bk
    { r with entries := Entry.dir n :: r.entries }
  | Entry.file n d :: es, bk =>
    if extOf n ∈ validExtensions then
      let diag := grayscaleLog (joinPath catPath n) d
      if is_grayscale d then
        if dry then
          let r := scrubFiles hb dry catPath split cat es bk
          { r with entries := Entry.file n d :: r.entries,
                   processed := r.processed + 1, removed := r.removed + 1,
                   log := diag ++ (Event.wouldRemove n :: r.log) }
        else if hb then
          let r := scrubFiles hb dry catPath split cat es (moveToBackup bk split cat n d)
          { r with processed := r.processed + 1, removed := r.removed + 1,
                   log := diag ++ (Event.movingToBackup n :: r.log) }
        else
          let r := scrubFiles hb dry catPath split cat es bk
          { r with processed := r.processed + 1, removed := r.removed + 1,
                   log := diag ++ (Event.removing n :: r.log) }
      else
        let r := scrubFiles hb dry catPath split cat es bk
        { r with entries := Entry.file n d :: r.entries,
                 processed := r.processed + 1,
                 log := diag ++ r.log }
    else
      let r := scrubFiles hb dry catPath split cat es bk
      { r with entries := Entry.file n d :: r.entries }

/-- Result of one or more category / split passes over the whole dataset. -/
structure PassResult where
  cats : CatMap
  bk : Backup
  processed : Nat
  removed : Nat
  log : List Event
deriving DecidableEq

/-- One category of one split: warn and skip if the directory is missing,
otherwise run the file loop and print the per-category summary. -/
def scrubCategory (hb dry : Bool) (path split cat : String)
    (cats : CatMap) (bk : Backup) : PassResult :=
  let categoryPath := catPathOf path split cat
  match lookupCat cats (split, cat) with
  | none => ⟨cats, bk, 0, 0, [Event.warnMissing categoryPath]⟩
  | some es =>
    let r := scrubFiles hb dry categoryPath split cat es bk
    ⟨setCat cats (split, cat) r.entries, r.bk, r.processed, r.removed,
      Event.processingCat split cat ::
        (r.log ++ [Event.catSummary split cat r.processed r.removed])⟩

/-- The `for category in [...]` loop over a list of category names. -/
def scrubCats (hb dry : Bool) (path split : String) :
    List String → CatMap → Backup → PassResult
  | [], cats, bk => ⟨cats, bk, 0, 0, []⟩
  | c :: cs, cats, bk =>
    let r1 := scrubCategory hb dry path split c cats bk
    let r2 := scrubCats hb dry path split cs r1.cats r1.bk
    ⟨r2.cats, r2.bk, r1.processed + r2.processed, r1.removed + r2.removed,
      r1.log ++ r2.log⟩

/-- The `for split in [...]` loop: warn and skip a split whose directory is
not present at the dataset root, otherwise run all categories of `catOrder`. -/
def scrubSplits (hb dry : Bool) (path : String) (splits : List String) :
    List String → CatMap → Backup → PassResult
  | [], cats, bk => ⟨cats, bk, 0, 0, []⟩
  | s :: ss, cats, bk =>
    if s ∈ splits then
      let r1 := scrubCats hb dry path s catOrder cats bk
      let r2 := scrubSplits hb dry path splits ss r1.cats r1.bk
      ⟨r2.cats, r2.bk, r1.processed + r2.processed, r1.removed + r2.removed,
        r1.log ++ r2.log⟩
    else
      let r2 := scrubSplits hb dry path splits ss cats bk
      ⟨r2.cats, r2.bk, r2.processed, r2.removed,
        Event.warnMissing (joinPath path s) :: r2.log⟩

/-- Full result of `process_dataset`. -/
structure ScrubResult where
  ds : Dataset
  bk : Backup
  totalProcessed : Nat
  totalRemoved : Nat
  log : List Event
deriving DecidableEq

/-- `process_dataset(dataset_path, backup_folder, dry_run)`: create the backup
root eagerly when a backup folder is given and this is not a dry run, then
run the two fixed splits and print the dataset summary. -/
def process_dataset (path : String) (hb dry : Bool) (ds : Dataset) (bk : Backup) :
    ScrubResult :=
  let bk0 := if hb && !dry then { bk with rootExists := true } else bk
  let r := scrubSplits hb dry path ds.splits splitOrder ds.cats bk0
  { ds := ⟨ds.splits, r.cats⟩, bk := r.bk,
    totalProcessed := r.processed, totalRemoved := r.removed,
    log := r.log ++ (Event.datasetSummary r.processed r.removed ::
      (if dry then [Event.dryRunNote] else [Event.removedNote r.removed])) }

/-- The `__main__` block: if the dataset argument is not a directory, print an
error and exit with code 1 without touching the filesystem; otherwise run
`process_dataset`. -/
def main_run (datasetPath : String) (datasetIsDir hasBackup dryRun : Bool)
    (ds : Dataset) (bk : Backup) : Option Nat × Dataset × Backup × List Event :=
  if datasetIsDir then
    let r := process_dataset datasetPath hasBackup dryRun ds bk
    (none, r.ds, r.bk, r.log)
  else
    (some 1, ds, bk, [Event.errorInvalidDir datasetPath])

/-! ### Derived predicates and counters -/

/-- A non-directory entry whose extension is in the valid image set. -/
def validE : Entry → Bool
  | .dir _ => false
  | .file n _ => decide (extOf n ∈ validExtensions)

/-- A valid image file that the classifier flags as grayscale. -/
def flaggedE : Entry → Bool
  | .dir _ => false
  | .file n d => decide (extOf n ∈ validExtensions) && is_grayscale d

def countValid (es : List Entry) : Nat := (es.filter validE).length

def countFlagged (es : List Entry) : Nat := (es.filter flaggedE).length

/-- Entries remaining in a category directory after the file loop: flagged
files are dropped unless this is a dry run, everything else is kept. -/
def entriesAfter (dry : Bool) : List Entry → List Entry
  | [] => []
  | e :: es =>
    if flaggedE e then
      (if dry then e :: entriesAfter dry es else entriesAfter dry es)
    else e :: entriesAfter dry es

def catCountP (cats : CatMap) (s c : String) : Nat :=
  match lookupCat cats (s, c) with
  | some es => countValid es
  | none => 0

def catCountF (cats : CatMap) (s c : String) : Nat :=
  match lookupCat cats (s, c) with
  | some es => countFlagged es
  | none => 0

/-- Number of valid image files in the category directories the scrubber
visits (present splits in `splitOrder`, categories of `catOrder`). -/
def dsProcessed (ds : Dataset) : Nat :=
  (splitOrder.map (fun s =>
    if s ∈ ds.splits then (catOrder.map (fun c => catCountP ds.cats s c)).sum
    else 0)).sum

/-- Number of flagged (valid grayscale) image files in the category
directories the scrubber visits. -/
def dsFlagged (ds : Dataset) : Nat :=
  (splitOrder.map (fun s =>
    if s ∈ ds.splits then (catOrder.map (fun c => catCountF ds.cats s c)).sum
    else 0)).sum

/-! ### Lemmas about the per-category file loop -/

lemma scrubFiles_processed (hb dry : Bool) (p s c : String) :
    ∀ (es : List Entry) (bk : Backup),
      (scrubFiles hb dry p s c es bk).processed = countValid es := by
  intro es
  induction es with
  | nil => intro bk; rfl
  | cons e es ih =>
    intro bk
    cases e with
    | dir n => simp [scrubFiles, countValid, List.filter_cons, validE, ih bk]
    | file n d =>
      by_cases hv : extOf n ∈ validExtensions
      · by_cases hg : is_grayscale d = true
        · cases dry
          · cases hb <;>
              simp [scrubFiles, countValid, List.filter_cons, validE, hv, hg, ih]
          · simp [scrubFiles, countValid, List.filter_cons, validE, hv, hg, ih]
        · simp [scrubFiles, countValid, List.filter_cons, validE, hv, hg, ih]
      · simp [scrubFiles, countValid, List.filter_cons, validE, hv, ih]

lemma scrubFiles_removed (hb dry : Bool) (p s c : String) :
    ∀ (es : List Entry) (bk : Backup),
      (scrubFiles hb dry p s c es bk).removed = countFlagged es := by
  intro es
  induction es with
  | nil => intro bk; rfl
  | cons e es ih =>
    intro bk
    cases e with
    | dir n => simp [scrubFiles, countFlagged, List.filter_cons, flaggedE, ih bk]
    | file n d =>
      by_cases hv : extOf n ∈ validExtensions
      · by_cases hg : is_grayscale d = true
        · cases dry
          · cases hb <;>
              simp [scrubFiles, countFlagged, List.filter_cons, flaggedE, hv, hg, ih]
          · simp [scrubFiles, countFlagged, List.filter_cons, flaggedE, hv, hg, ih]
        · simp [scrubFiles, countFlagged, List.filter_cons, flaggedE, hv, hg, ih]
      · simp [scrubFiles, countFlagged, List.filter_cons, flaggedE, hv, ih]

lemma scrubFiles_entries (hb dry : Bool) (p s c : String) :
    ∀ (es : List Entry) (bk : Backup),
      (scrubFiles hb dry p s c es bk).entries = entriesAfter dry es := by
  intro es
  induction es with
  | nil => intro bk; rfl
  | cons e es ih =>
    intro bk
    cases e with
    | dir n => simp [scrubFiles, entriesAfter, flaggedE, ih bk]
    | file n d =>
      by_cases hv : extOf n ∈ validExtensions
      · by_cases hg : is_grayscale d = true
        · cases dry
          · cases hb <;> simp [scrubFiles, entriesAfter, flaggedE, hv, hg, ih]
          · simp [scrubFiles, entriesAfter, flaggedE, hv, hg, ih]
        · simp [scrubFiles, entriesAfter, flaggedE, hv, hg, ih]
      · simp [scrubFiles, entriesAfter, flaggedE, hv, ih]

lemma scrubFiles_dry_bk (hb : Bool) (p s c : String) :
    ∀ (es : List Entry) (bk : Backup),
      (scrubFiles hb true p s c es bk).bk = bk := by
  intro es
  induction es with
  | nil => intro bk; rfl
  | cons e es ih =>
    intro bk
    cases e with
    | dir n => simp [scrubFiles, ih bk]
    | file n d =>
      by_cases hv : extOf n ∈ validExtensions
      · by_cases hg : is_grayscale d = true
        · simp [scrubFiles, hv, hg, ih]
        · simp [scrubFiles, hv, hg, ih]
      · simp [scrubFiles, hv, ih]

lemma scrubFiles_noBackup_bk (dry : Bool) (p s c : String) :
    ∀ (es : List Entry) (bk : Backup),
      (scrubFiles false dry p s c es bk).bk = bk := by
  intro es
  induction es with
  | nil => intro bk; rfl
  | cons e es ih =>
    intro bk
    cases e with
    | dir n => simp [scrubFiles, ih bk]
    | file n d =>
      by_cases hv : extOf n ∈ validExtensions
      · by_cases hg : is_grayscale d = true
        · cases dry <;> simp [scrubFiles, hv, hg, ih]
        · simp [scrubFiles, hv, hg, ih]
      · simp [scrubFiles, hv, ih]

/-! ### Association-map lemmas -/

lemma lookupCat_setCat_self : ∀ (cats : CatMap) (k : CatKey) (v : List Entry),
    lookupCat (setCat cats k v) k = some v := by
  intro cats k v
  induction cats with
  | nil => simp [setCat, lookupCat]
  | cons kv rest ih =>
    by_cases h : kv.1 = k
    · simp [setCat, lookupCat, h]
    · simp [setCat, lookupCat, h, ih]

lemma lookupCat_setCat_ne : ∀ (cats : CatMap) (k k' : CatKey) (v : List Entry),
    k' ≠ k → lookupCat (setCat cats k v) k' = lookupCat cats k' := by
  intro cats k k' v hne
  have hne' : ¬(k = k') := fun h => hne h.symm
  induction cats with
  | nil => simp [setCat, lookupCat, hne']
  | cons kv rest ih =>
    obtain ⟨k0, v0⟩ := kv
    by_cases h : k0 = k
    · subst h
      simp [setCat, lookupCat, hne']
    · simp [setCat, lookupCat, h]
      by_cases h' : k0 = k'
      · simp [h', lookupCat]
      · simp [h', lookupCat, ih]

lemma setCat_lookup_self : ∀ (cats : CatMap) (k : CatKey) (v : List Entry),
    lookupCat cats k = some v → setCat cats k v = cats := by
  intro cats k v
  induction cats with
  | nil => intro h; simp [lookupCat] at h
  | cons kv rest ih =>
    intro h
    obtain ⟨k0, v0⟩ := kv
    by_cases hk : k0 = k
    · subst hk
      simp [lookupCat] at h
      simp [setCat, h]
    · simp [lookupCat, hk] at h
      simp [setCat, hk, ih h]

lemma lookupBk_setBk_self : ∀ (fs : List (BkKey × ImageFile)) (k : BkKey) (v : ImageFile),
    lookupBk (setBk fs k v) k = some v := by
  intro fs k v
  induction fs with
  | nil => simp [setBk, lookupBk]
  | cons kv rest ih =>
    by_cases h : kv.1 = k
    · simp [setBk, lookupBk, h]
    · simp [setBk, lookupBk, h, ih]

lemma lookupBk_setBk_ne : ∀ (fs : List (BkKey × ImageFile)) (k k' : BkKey) (v : ImageFile),
    k' ≠ k → lookupBk (setBk fs k v) k' = lookupBk fs k' := by
  intro fs k k' v hne
  have hne' : ¬(k = k') := fun h => hne h.symm
  induction fs with
  | nil => simp [setBk, lookupBk, hne']
  | cons kv rest ih =>
    obtain ⟨k0, v0⟩ := kv
    by_cases h : k0 = k
    · subst h
      simp [setBk, lookupBk, hne']
    · simp [setBk, lookupBk, h]
      by_cases h' : k0 = k'
      · simp [h', lookupBk]
      · simp [h', lookupBk, ih]

/-! ### Lemmas about `entriesAfter` -/

lemma entriesAfter_dry : ∀ es : List Entry, entriesAfter true es = es := by
  intro es
  induction es with
  | nil => rfl
  | cons e es ih =>
    by_cases h : flaggedE e = true <;> simp [entriesAfter, h, ih]

lemma entriesAfter_clean : ∀ es : List Entry,
    ∀ e ∈ entriesAfter false es, flaggedE e = false := by
  intro es
  induction es with
  | nil => intro e he; simp [entriesAfter] at he
  | cons x es ih =>
    intro e he
    by_cases h : flaggedE x = true
    · simp [entriesAfter, h] at he
      exact ih e he
    · simp [entriesAfter, h] at he
      rcases he with he | he
      · subst he; simpa using h
      · exact ih e he

lemma entriesAfter_keeps (dry : Bool) : ∀ (es : List Entry) (e : Entry),
    e ∈ es → flaggedE e = false → e ∈ entriesAfter dry es := by
  intro es
  induction es with
  | nil => intro e he; simp at he
  | cons x es ih =>
    intro e he hf
    rcases (List.mem_cons.mp he) with he | he
    · subst he
      simp [entriesAfter, hf]
    · by_cases h : flaggedE x = true <;>
        cases dry <;> simp [entriesAfter, h, ih e he hf]

lemma entriesAfter_subset (dry : Bool) : ∀ es : List Entry, entriesAfter dry es ⊆ es := by
  intro es
  induction es with
  | nil => simp [entriesAfter]
  | cons x es ih =>
    intro a ha
    by_cases h : flaggedE x = true
    · cases dry
      · simp only [entriesAfter, h, if_true, Bool.false_eq_true, if_false] at ha
        exact List.mem_cons_of_mem _ (ih ha)
      · simp only [entriesAfter, h, if_true] at ha
        rcases (List.mem_cons.mp ha) with ha | ha
        · subst ha; exact List.mem_cons_self _ _
        · exact List.mem_cons_of_mem _ (ih ha)
    · simp only [entriesAfter, h, Bool.false_eq_true, if_false] at ha
      rcases (List.mem_cons.mp ha) with ha | ha
      · subst ha; exact List.mem_cons_self _ _
      · exact List.mem_cons_of_mem _ (ih ha)

lemma entriesAfter_name_gone : ∀ (es : List Entry) (n : String) (d : ImageFile),
    (es.map Entry.name).Nodup → Entry.file n d ∈ es →
    flaggedE (Entry.file n d) = true →
    ∀ e ∈ entriesAfter false es, e.name ≠ n := by
  intro es
  induction es with
  | nil => intro n d _ hmem; simp at hmem
  | cons x es ih =>
    intro n d hnd hmem hfl e he
    rw [List.map_cons, List.nodup_cons] at hnd
    rcases (List.mem_cons.mp hmem) with hx | hx
    · subst hx
      simp [entriesAfter, hfl] at he
      intro hcon
      have hmem' : e.name ∈ es.map Entry.name :=
        List.mem_map_of_mem Entry.name (entriesAfter_subset false es he)
      rw [hcon] at hmem'
      exact hnd.1 hmem'
    · have hn : n ∈ es.map Entry.name := by
        have hrfl : Entry.name (Entry.file n d) = n := rfl
        rw [← hrfl]
        exact List.mem_map_of_mem Entry.name hx
      by_cases h : flaggedE x = true
      · simp [entriesAfter, h] at he
        exact ih n d hnd.2 hx hfl e he
      · simp [entriesAfter, h] at he
        rcases he with he | he
        · subst he
          intro hcon
          exact hnd.1 (hcon ▸ hn)
        · exact ih n d hnd.2 hx hfl e he

lemma countFlagged_entriesAfter (es : List Entry) :
    countFlagged (entriesAfter false es) = 0 := by
  unfold countFlagged
  rw [List.length_eq_zero, List.filter_eq_nil_iff]
  intro a ha
  have := entriesAfter_clean es a ha
  simp [this]

lemma countFlagged_eq_zero (es : List Entry) :
    countFlagged es = 0 ↔ ∀ e ∈ es, flaggedE e = false := by
  unfold countFlagged
  rw [List.length_eq_zero, List.filter_eq_nil_iff]
  constructor
  · intro h e he
    have := h e he
    simpa using this
  · intro h e he
    simp [h e he]

lemma scrubFiles_noFlagged_bk (hb dry : Bool) (p s c : String) :
    ∀ (es : List Entry) (bk : Backup),
      (∀ e ∈ es, flaggedE e = false) → (scrubFiles hb dry p s c es bk).bk = bk := by
  intro es
  induction es with
  | nil => intro bk _; rfl
  | cons e es ih =>
    intro bk h
    have he := h e (List.mem_cons_self _ _)
    have hes : ∀ x ∈ es, flaggedE x = false :=
      fun x hx => h x (List.mem_cons_of_mem _ hx)
    cases e with
    | dir n => simp [scrubFiles, ih bk hes]
    | file n d =>
      by_cases hv : extOf n ∈ validExtensions
      · have hg : is_grayscale d = false := by
          simp [flaggedE, hv] at he
          exact he
        simp [scrubFiles, hv, hg, ih bk hes]
      · simp [scrubFiles, hv, ih bk hes]

lemma scrubFiles_bk_preserve (hb dry : Bool) (p s c s' c' n' : String) :
    ∀ (es : List Entry) (bk : Backup),
      ((s', c') ≠ (s, c) ∨ n' ∉ es.map Entry.name) →
      lookupBk (scrubFiles hb dry p s c es bk).bk.files (s', c', n') =
        lookupBk bk.files (s', c', n') := by
  intro es
  induction es with
  | nil => intro bk _; rfl
  | cons e es ih =>
    intro bk h
    have h' : (s', c') ≠ (s, c) ∨ n' ∉ es.map Entry.name := by
      rcases h with h | h
      · exact Or.inl h
      · right
        intro hc
        exact h (by rw [List.map_cons]; exact List.mem_cons_of_mem _ hc)
    cases e with
    | dir n => simp [scrubFiles]; exact ih bk h'
    | file n d =>
      have hkey : (s', c', n') ≠ (s, c, n) := by
        intro heq
        injection heq with h1 h23
        injection h23 with h2 h3
        rcases h with h | h
        · exact h (by rw [h1, h2])
        · exact h (by rw [h3, List.map_cons]; exact List.mem_cons_self _ _)
      by_cases hv : extOf n ∈ validExtensions
      · by_cases hg : is_grayscale d = true
        · cases dry
          · cases hb
            · simp [scrubFiles, hv, hg]
              exact ih bk h'
            · simp [scrubFiles, hv, hg]
              rw [ih (moveToBackup bk s c n d) h']
              simp [moveToBackup]
              exact lookupBk_setBk_ne _ _ _ _ hkey
          · simp [scrubFiles, hv, hg]
            exact ih bk h'
        · simp [scrubFiles, hv, hg]
          exact ih bk h'
      · simp [scrubFiles, hv]
        exact ih bk h'

lemma scrubFiles_bk_moved (p s c : String) :
    ∀ (es : List Entry) (bk : Backup) (n : String) (d : ImageFile),
      Entry.file n d ∈ es → flaggedE (Entry.file n d) = true →
      (es.map Entry.name).Nodup →
      lookupBk (scrubFiles true false p s c es bk).bk.files (s, c, n) = some d := by
  intro es
  induction es with
  | nil => intro bk n d hmem; simp at hmem
  | cons e es ih =>
    intro bk n d hmem hfl hnd
    rw [List.map_cons, List.nodup_cons] at hnd
    rcases List.mem_cons.mp hmem with hx | hx
    · subst hx
      have hv : extOf n ∈ validExtensions := by
        have := hfl
        simp [flaggedE] at this
        exact this.1
      have hg : is_grayscale d = true := by
        have := hfl
        simp [flaggedE] at this
        exact this.2
      simp [scrubFiles, hv, hg]
      rw [scrubFiles_bk_preserve true false p s c s c n es _ (Or.inr hnd.1)]
      simp [moveToBackup]
      exact lookupBk_setBk_self _ _ _
    · cases e with
      | dir m =>
        simp [scrubFiles]
        exact ih bk n d hx hfl hnd.2
      | file m d' =>
        by_cases hv : extOf m ∈ validExtensions
        · by_cases hg : is_grayscale d' = true
          · simp [scrubFiles, hv, hg]
            exact ih _ n d hx hfl hnd.2
          · simp [scrubFiles, hv, hg]
            exact ih bk n d hx hfl hnd.2
        · simp [scrubFiles, hv]
          exact ih bk n d hx hfl hnd.2

/-! ### Lemmas about one category pass -/

lemma scrubCategory_cats_preserve (hb dry : Bool) (path s c : String)
    (cats : CatMap) (bk : Backup) (key : CatKey) (hne : key ≠ (s, c)) :
    lookupCat (scrubCategory hb dry path s c cats bk).cats key = lookupCat cats key := by
  cases hcl : lookupCat cats (s, c) with
  | none => simp [scrubCategory, hcl]
  | some es => simp [scrubCategory, hcl, lookupCat_setCat_ne _ _ _ _ hne]

lemma scrubCategory_cats_self (hb dry : Bool) (path s c : String)
    (cats : CatMap) (bk : Backup) (es : List Entry)
    (hcl : lookupCat cats (s, c) = some es) :
    lookupCat (scrubCategory hb dry path s c cats bk).cats (s, c)
      = some (entriesAfter dry es) := by
  simp [scrubCategory, hcl, scrubFiles_entries, lookupCat_setCat_self]

lemma scrubCategory_cats_none_key (hb dry : Bool) (path s c : String)
    (cats : CatMap) (bk : Backup) (key : CatKey)
    (h : lookupCat cats key = none) :
    lookupCat (scrubCategory hb dry path s c cats bk).cats key = none := by
  by_cases hk : key = (s, c)
  · subst hk
    simp [scrubCategory, h]
  · rw [scrubCategory_cats_preserve hb dry path s c cats bk key hk]
    exact h

lemma scrubCategory_bk_preserve (hb dry : Bool) (path s c s' c' n' : String)
    (cats : CatMap) (bk : Backup) (h : (s', c') ≠ (s, c)) :
    lookupBk (scrubCategory hb dry path s c cats bk).bk.files (s', c', n')
      = lookupBk bk.files (s', c', n') := by
  cases hcl : lookupCat cats (s, c) with
  | none => simp [scrubCategory, hcl]
  | some es =>
    simp [scrubCategory, hcl]
    exact scrubFiles_bk_preserve hb dry _ s c s' c' n' es bk (Or.inl h)

lemma scrubCategory_processed (hb dry : Bool) (path s c : String)
    (cats : CatMap) (bk : Backup) :
    (scrubCategory hb dry path s c cats bk).processed = catCountP cats s c := by
  cases hcl : lookupCat cats (s, c) with
  | none => simp [scrubCategory, catCountP, hcl]
  | some es => simp [scrubCategory, catCountP, hcl, scrubFiles_processed]

lemma scrubCategory_removed (hb dry : Bool) (path s c : String)
    (cats : CatMap) (bk : Backup) :
    (scrubCategory hb dry path s c cats bk).removed = catCountF cats s c := by
  cases hcl : lookupCat cats (s, c) with
  | none => simp [scrubCategory, catCountF, hcl]
  | some es => simp [scrubCategory, catCountF, hcl, scrubFiles_removed]

lemma scrubCategory_removed_zero_bk (hb dry : Bool) (path s c : String)
    (cats : CatMap) (bk : Backup)
    (h : (scrubCategory hb dry path s c cats bk).removed = 0) :
    (scrubCategory hb dry path s c cats bk).bk = bk := by
  cases hcl : lookupCat cats (s, c) with
  | none => simp [scrubCategory, hcl]
  | some es =>
    rw [scrubCategory_removed] at h
    rw [catCountF, hcl] at h
    have hclean := (countFlagged_eq_zero es).mp h
    simp [scrubCategory, hcl]
    exact scrubFiles_noFlagged_bk hb dry _ s c es bk hclean

lemma scrubCategory_dry_cats (hb : Bool) (path s c : String)
    (cats : CatMap) (bk : Backup) :
    (scrubCategory hb true path s c cats bk).cats = cats := by
  cases hcl : lookupCat cats (s, c) with
  | none => simp [scrubCategory, hcl]
  | some es =>
    simp [scrubCategory, hcl, scrubFiles_entries, entriesAfter_dry]
    exact setCat_lookup_self cats (s, c) es hcl

lemma scrubCategory_dry_bk (hb : Bool) (path s c : String)
    (cats : CatMap) (bk : Backup) :
    (scrubCategory hb true path s c cats bk).bk = bk := by
  cases hcl : lookupCat cats (s, c) with
  | none => simp [scrubCategory, hcl]
  | some es => simp [scrubCategory, hcl, scrubFiles_dry_bk]

lemma scrubCategory_noBackup_bk (dry : Bool) (path s c : String)
    (cats : CatMap) (bk : Backup) :
    (scrubCategory false dry path s c cats bk).bk = bk := by
  cases hcl : lookupCat cats (s, c) with
  | none => simp [scrubCategory, hcl]
  | some es => simp [scrubCategory, hcl, scrubFiles_noBackup_bk]

/-! ### Lemmas about the category loop -/

lemma sum_map_congr {α : Type} (l : List α) (f g : α → Nat)
    (h : ∀ a ∈ l, f a = g a) : (l.map f).sum = (l.map g).sum := by
  induction l with
  | nil => rfl
  | cons a l ih =>
    simp only [List.map_cons, List.sum_cons]
    rw [h a (List.mem_cons_self a l), ih (fun x hx => h x (List.mem_cons_of_mem _ hx))]

lemma scrubCats_cats_preserve (hb dry : Bool) (path s : String) :
    ∀ (cs : List String) (cats : CatMap) (bk : Backup) (key : CatKey),
      (key.1 ≠ s ∨ key.2 ∉ cs) →
      lookupCat (scrubCats hb dry path s cs cats bk).cats key = lookupCat cats key := by
  intro cs
  induction cs with
  | nil => intro cats bk key _; rfl
  | cons c cs ih =>
    intro cats bk key h
    have hkc : key ≠ (s, c) := by
      intro heq
      subst heq
      rcases h with h | h
      · exact h rfl
      · exact h (List.mem_cons_self _ _)
    have h' : key.1 ≠ s ∨ key.2 ∉ cs := by
      rcases h with h | h
      · exact Or.inl h
      · exact Or.inr (fun hc => h (List.mem_cons_of_mem _ hc))
    simp only [scrubCats]
    rw [ih _ _ key h', scrubCategory_cats_preserve hb dry path s c cats bk key hkc]

lemma scrubCats_bk_preserve (hb dry : Bool) (path s : String) :
    ∀ (cs : List String) (cats : CatMap) (bk : Backup) (s' c' n' : String),
      (s' ≠ s ∨ c' ∉ cs) →
      lookupBk (scrubCats hb dry path s cs cats bk).bk.files (s', c', n')
        = lookupBk bk.files (s', c', n') := by
  intro cs
  induction cs with
  | nil => intro cats bk s' c' n' _; rfl
  | cons c cs ih =>
    intro cats bk s' c' n' h
    have hkc : (s', c') ≠ (s, c) := by
      intro heq
      injection heq with h1 h2
      rcases h with h | h
      · exact h h1
      · exact h (h2 ▸ List.mem_cons_self _ _)
    have h' : s' ≠ s ∨ c' ∉ cs := by
      rcases h with h | h
      · exact Or.inl h
      · exact Or.inr (fun hc => h (List.mem_cons_of_mem _ hc))
    simp only [scrubCats]
    rw [ih _ _ s' c' n' h', scrubCategory_bk_preserve hb dry path s c s' c' n' cats bk hkc]

lemma scrubCats_processed (hb dry : Bool) (path s : String) :
    ∀ (cs : List String) (cats : CatMap) (bk : Backup), cs.Nodup →
      (scrubCats hb dry path s cs cats bk).processed
        = (cs.map fun c => catCountP cats s c).sum := by
  intro cs
  induction cs with
  | nil => intro cats bk _; rfl
  | cons c cs ih =>
    intro cats bk hnd
    rw [List.nodup_cons] at hnd
    simp only [scrubCats, List.map_cons, List.sum_cons]
    rw [scrubCategory_processed, ih _ _ hnd.2]
    congr 1
    apply sum_map_congr
    intro c' hc'
    unfold catCountP
    rw [scrubCategory_cats_preserve hb dry path s c cats bk (s, c')
      (by intro heq; injection heq with _ h2; exact hnd.1 (h2 ▸ hc'))]

lemma scrubCats_removed (hb dry : Bool) (path s : String) :
    ∀ (cs : List String) (cats : CatMap) (bk : Backup), cs.Nodup →
      (scrubCats hb dry path s cs cats bk).removed
        = (cs.map fun c => catCountF cats s c).sum := by
  intro cs
  induction cs with
  | nil => intro cats bk _; rfl
  | cons c cs ih =>
    intro cats bk hnd
    rw [List.nodup_cons] at hnd
    simp only [scrubCats, List.map_cons, List.sum_cons]
    rw [scrubCategory_removed, ih _ _ hnd.2]
    congr 1
    apply sum_map_congr
    intro c' hc'
    unfold catCountF
    rw [scrubCategory_cats_preserve hb dry path s c cats bk (s, c')
      (by intro heq; injection heq with _ h2; exact hnd.1 (h2 ▸ hc'))]

lemma scrubCats_removed_zero_bk (hb dry : Bool) (path s : String) :
    ∀ (cs : List String) (cats : CatMap) (bk : Backup),
      (scrubCats hb dry path s cs cats bk).removed = 0 →
      (scrubCats hb dry path s cs cats bk).bk = bk := by
  intro cs
  induction cs with
  | nil => intro cats bk _; rfl
  | cons c cs ih =>
    intro cats bk h
    simp only [scrubCats] at h ⊢
    have h1 : (scrubCategory hb dry path s c cats bk).removed = 0 := by omega
    have h2 : (scrubCats hb dry path s cs (scrubCategory hb dry path s c cats bk).cats
        (scrubCategory hb dry path s c cats bk).bk).removed = 0 := by omega
    rw [ih _ _ h2, scrubCategory_removed_zero_bk hb dry path s c cats bk h1]

lemma scrubCats_dry_cats (hb : Bool) (path s : String) :
    ∀ (cs : List String) (cats : CatMap) (bk : Backup),
      (scrubCats hb true path s cs cats bk).cats = cats := by
  intro cs
  induction cs with
  | nil => intro cats bk; rfl
  | cons c cs ih =>
    intro cats bk
    simp only [scrubCats]
    rw [ih, scrubCategory_dry_cats]

lemma scrubCats_dry_bk (hb : Bool) (path s : String) :
    ∀ (cs : List String) (cats : CatMap) (bk : Backup),
      (scrubCats hb true path s cs cats bk).bk = bk := by
  intro cs
  induction cs with
  | nil => intro cats bk; rfl
  | cons c cs ih =>
    intro cats bk
    simp only [scrubCats]
    rw [ih, scrubCategory_dry_bk]

lemma scrubCats_noBackup_bk (dry : Bool) (path s : String) :
    ∀ (cs : List String) (cats : CatMap) (bk : Backup),
      (scrubCats false dry path s cs cats bk).bk = bk := by
  intro cs
  induction cs with
  | nil => intro cats bk; rfl
  | cons c cs ih =>
    intro cats bk
    simp only [scrubCats]
    rw [ih, scrubCategory_noBackup_bk]

lemma scrubCats_cats_none_key (hb dry : Bool) (path s : String) :
    ∀ (cs : List String) (cats : CatMap) (bk : Backup) (key : CatKey),
      lookupCat cats key = none →
      lookupCat (scrubCats hb dry path s cs cats bk).cats key = none := by
  intro cs
  induction cs with
  | nil => intro cats bk key h; exact h
  | cons c cs ih =>
    intro cats bk key h
    simp only [scrubCats]
    exact ih _ _ key (scrubCategory_cats_none_key hb dry path s c cats bk key h)

lemma scrubCats_reach (hb dry : Bool) (path s : String) :
    ∀ (cs : List String) (cats : CatMap) (bk : Backup) (c : String) (es : List Entry),
      c ∈ cs → cs.Nodup → lookupCat cats (s, c) = some es →
      lookupCat (scrubCats hb dry path s cs cats bk).cats (s, c)
        = some (entriesAfter dry es) := by
  intro cs
  induction cs with
  | nil => intro cats bk c es hc; simp at hc
  | cons c0 cs ih =>
    intro cats bk c es hc hnd hcl
    rw [List.nodup_cons] at hnd
    simp only [scrubCats]
    rcases List.mem_cons.mp hc with hc | hc
    · subst hc
      rw [scrubCats_cats_preserve hb dry path s cs _ _ (s, c) (Or.inr hnd.1)]
      exact scrubCategory_cats_self hb dry path s c cats bk es hcl
    · have hne : (s, c) ≠ (s, c0) := by
        intro heq
        injection heq with _ h2
        exact hnd.1 (h2 ▸ hc)
      exact ih _ _ c es hc hnd.2
        (by rw [scrubCategory_cats_preserve hb dry path s c0 cats bk (s, c) hne]; exact hcl)

lemma scrubCategory_bk_moved (path s c : String) (cats : CatMap) (bk : Backup)
    (es : List Entry) (n : String) (d : ImageFile)
    (hcl : lookupCat cats (s, c) = some es)
    (hmem : Entry.file n d ∈ es) (hfl : flaggedE (Entry.file n d) = true)
    (hnd : (es.map Entry.name).Nodup) :
    lookupBk (scrubCategory true false path s c cats bk).bk.files (s, c, n) = some d := by
  simp [scrubCategory, hcl]
  exact scrubFiles_bk_moved _ s c es bk n d hmem hfl hnd

lemma scrubCats_bk_reach (path s : String) :
    ∀ (cs : List String) (cats : CatMap) (bk : Backup) (c : String) (es : List Entry)
      (n : String) (d : ImageFile),
      c ∈ cs → cs.Nodup → lookupCat cats (s, c) = some es →
      Entry.file n d ∈ es → flaggedE (Entry.file n d) = true →
      (es.map Entry.name).Nodup →
      lookupBk (scrubCats true false path s cs cats bk).bk.files (s, c, n) = some d := by
  intro cs
  induction cs with
  | nil => intro cats bk c es n d hc; simp at hc
  | cons c0 cs ih =>
    intro cats bk c es n d hc hnd hcl hmem hfl hnames
    rw [List.nodup_cons] at hnd
    simp only [scrubCats]
    rcases List.mem_cons.mp hc with hc | hc
    · subst hc
      rw [scrubCats_bk_preserve true false path s cs _ _ s c n (Or.inr hnd.1)]
      exact scrubCategory_bk_moved path s c cats bk es n d hcl hmem hfl hnames
    · have hne : (s, c) ≠ (s, c0) := by
        intro heq
        injection heq with _ h2
        exact hnd.1 (h2 ▸ hc)
      exact ih _ _ c es n d hc hnd.2
        (by rw [scrubCategory_cats_preserve true false path s c0 cats bk (s, c) hne]; exact hcl)
        hmem hfl hnames

/-! ### Lemmas about the split loop -/

lemma scrubSplits_cats_preserve (hb dry : Bool) (path : String) (splits : List String) :
    ∀ (ss : List String) (cats : CatMap) (bk : Backup) (key : CatKey),
      key.1 ∉ ss →
      lookupCat (scrubSplits hb dry path splits ss cats bk).cats key = lookupCat cats key := by
  intro ss
  induction ss with
  | nil => intro cats bk key _; rfl
  | cons s ss ih =>
    intro cats bk key h
    have h1 : key.1 ≠ s := fun heq => h (heq ▸ List.mem_cons_self _ _)
    have h2 : key.1 ∉ ss := fun hc => h (List.mem_cons_of_mem _ hc)
    by_cases hs : s ∈ splits
    · simp only [scrubSplits, hs, if_true]
      rw [ih _ _ key h2, scrubCats_cats_preserve hb dry path s catOrder cats bk key (Or.inl h1)]
    · simp only [scrubSplits, hs, if_false]
      exact ih _ _ key h2

lemma scrubSplits_bk_preserve (hb dry : Bool) (path : String) (splits : List String) :
    ∀ (ss : List String) (cats : CatMap) (bk : Backup) (s' c' n' : String),
      s' ∉ ss →
      lookupBk (scrubSplits hb dry path splits ss cats bk).bk.files (s', c', n')
        = lookupBk bk.files (s', c', n') := by
  intro ss
  induction ss with
  | nil => intro cats bk s' c' n' _; rfl
  | cons s ss ih =>
    intro cats bk s' c' n' h
    have h1 : s' ≠ s := fun heq => h (heq ▸ List.mem_cons_self _ _)
    have h2 : s' ∉ ss := fun hc => h (List.mem_cons_of_mem _ hc)
    by_cases hs : s ∈ splits
    · simp only [scrubSplits, hs, if_true]
      rw [ih _ _ s' c' n' h2,
        scrubCats_bk_preserve hb dry path s catOrder cats bk s' c' n' (Or.inl h1)]
    · simp only [scrubSplits, hs, if_false]
      exact ih _ _ s' c' n' h2

lemma scrubSplits_processed (hb dry : Bool) (path : String) (splits : List String) :
    ∀ (ss : List String) (cats : CatMap) (bk : Backup), ss.Nodup →
      (scrubSplits hb dry path splits ss cats bk).processed
        = (ss.map fun s =>
            if s ∈ splits then (catOrder.map fun c => catCountP cats s c).sum
            else 0).sum := by
  intro ss
  induction ss with
  | nil => intro cats bk _; rfl
  | cons s ss ih =>
    intro cats bk hnd
    rw [List.nodup_cons] at hnd
    by_cases hs : s ∈ splits
    · simp only [scrubSplits, hs, if_true, List.map_cons, List.sum_cons]
      rw [scrubCats_processed hb dry path s catOrder cats bk (by decide), ih _ _ hnd.2]
      congr 1
      apply sum_map_congr
      intro a ha
      by_cases has : a ∈ splits
      · simp only [has, if_true]
        apply sum_map_congr
        intro c _
        unfold catCountP
        rw [scrubCats_cats_preserve hb dry path s catOrder cats bk (a, c)
          (Or.inl (fun heq => hnd.1 (heq ▸ ha)))]
      · simp [has]
    · simp only [scrubSplits, hs, if_false, List.map_cons, List.sum_cons]
      rw [ih _ _ hnd.2]
      simp [hs]

lemma scrubSplits_removed (hb dry : Bool) (path : String) (splits : List String) :
    ∀ (ss : List String) (cats : CatMap) (bk : Backup), ss.Nodup →
      (scrubSplits hb dry path splits ss cats bk).removed
        = (ss.map fun s =>
            if s ∈ splits then (catOrder.map fun c => catCountF cats s c).sum
            else 0).sum := by
  intro ss
  induction ss with
  | nil => intro cats bk _; rfl
  | cons s ss ih =>
    intro cats bk hnd
    rw [List.nodup_cons] at hnd
    by_cases hs : s ∈ splits
    · simp only [scrubSplits, hs, if_true, List.map_cons, List.sum_cons]
      rw [scrubCats_removed hb dry path s catOrder cats bk (by decide), ih _ _ hnd.2]
      congr 1
      apply sum_map_congr
      intro a ha
      by_cases has : a ∈ splits
      · simp only [has, if_true]
        apply sum_map_congr
        intro c _
        unfold catCountF
        rw [scrubCats_cats_preserve hb dry path s catOrder cats bk (a, c)
          (Or.inl (fun heq => hnd.1 (heq ▸ ha)))]
      · simp [has]
    · simp only [scrubSplits, hs, if_false, List.map_cons, List.sum_cons]
      rw [ih _ _ hnd.2]
      simp [hs]

lemma scrubSplits_removed_zero_bk (hb dry : Bool) (path : String) (splits : List String) :
    ∀ (ss : List String) (cats : CatMap) (bk : Backup),
      (scrubSplits hb dry path splits ss cats bk).removed = 0 →
      (scrubSplits hb dry path splits ss cats bk).bk = bk := by
  intro ss
  induction ss with
  | nil => intro cats bk _; rfl
  | cons s ss ih =>
    intro cats bk h
    by_cases hs : s ∈ splits
    · simp only [scrubSplits, hs, if_true] at h ⊢
      have h1 : (scrubCats hb dry path s catOrder cats bk).removed = 0 := by omega
      have h2 : (scrubSplits hb dry path splits ss
          (scrubCats hb dry path s catOrder cats bk).cats
          (scrubCats hb dry path s catOrder cats bk).bk).removed = 0 := by omega
      rw [ih _ _ h2, scrubCats_removed_zero_bk hb dry path s catOrder cats bk h1]
    · simp only [scrubSplits, hs, if_false] at h ⊢
      exact ih _ _ h

lemma scrubSplits_dry_cats (hb : Bool) (path : String) (splits : List String) :
    ∀ (ss : List String) (cats : CatMap) (bk : Backup),
      (scrubSplits hb true path splits ss cats bk).cats = cats := by
  intro ss
  induction ss with
  | nil => intro cats bk; rfl
  | cons s ss ih =>
    intro cats bk
    by_cases hs : s ∈ splits
    · simp only [scrubSplits, hs, if_true]
      rw [ih, scrubCats_dry_cats]
    · simp only [scrubSplits, hs, if_false]
      exact ih _ _

lemma scrubSplits_dry_bk (hb : Bool) (path : String) (splits : List String) :
    ∀ (ss : List String) (cats : CatMap) (bk : Backup),
      (scrubSplits hb true path splits ss cats bk).bk = bk := by
  intro ss
  induction ss with
  | nil => intro cats bk; rfl
  | cons s ss ih =>
    intro cats bk
    by_cases hs : s ∈ splits
    · simp only [scrubSplits, hs, if_true]
      rw [ih, scrubCats_dry_bk]
    · simp only [scrubSplits, hs, if_false]
      exact ih _ _

lemma scrubSplits_noBackup_bk (dry : Bool) (path : String) (splits : List String) :
    ∀ (ss : List String) (cats : CatMap) (bk : Backup),
      (scrubSplits false dry path splits ss cats bk).bk = bk := by
  intro ss
  induction ss with
  | nil => intro cats bk; rfl
  | cons s ss ih =>
    intro cats bk
    by_cases hs : s ∈ splits
    · simp only [scrubSplits, hs, if_true]
      rw [ih, scrubCats_noBackup_bk]
    · simp only [scrubSplits, hs, if_false]
      exact ih _ _

lemma scrubSplits_cats_none_key (hb dry : Bool) (path : String) (splits : List String) :
    ∀ (ss : List String) (cats : CatMap) (bk : Backup) (key : CatKey),
      lookupCat cats key = none →
      lookupCat (scrubSplits hb dry path splits ss cats bk).cats key = none := by
  intro ss
  induction ss with
  | nil => intro cats bk key h; exact h
  | cons s ss ih =>
    intro cats bk key h
    by_cases hs : s ∈ splits
    · simp only [scrubSplits, hs, if_true]
      exact ih _ _ key (scrubCats_cats_none_key hb dry path s catOrder cats bk key h)
    · simp only [scrubSplits, hs, if_false]
      exact ih _ _ key h

lemma scrubSplits_reach (hb dry : Bool) (path : String) (splits : List String) :
    ∀ (ss : List String) (cats : CatMap) (bk : Backup) (s c : String) (es : List Entry),
      s ∈ ss → ss.Nodup → s ∈ splits → c ∈ catOrder →
      lookupCat cats (s, c) = some es →
      lookupCat (scrubSplits hb dry path splits ss cats bk).cats (s, c)
        = some (entriesAfter dry es) := by
  intro ss
  induction ss with
  | nil => intro cats bk s c es hmem; simp at hmem
  | cons s0 ss ih =>
    intro cats bk s c es hmem hnd hsp hc hcl
    rw [List.nodup_cons] at hnd
    rcases List.mem_cons.mp hmem with hx | hx
    · subst hx
      simp only [scrubSplits, hsp, if_true]
      rw [scrubSplits_cats_preserve hb dry path splits ss _ _ (s, c) hnd.1]
      exact scrubCats_reach hb dry path s catOrder cats bk c es hc (by decide) hcl
    · have hne : s ≠ s0 := fun heq => hnd.1 (heq ▸ hx)
      by_cases hs0 : s0 ∈ splits
      · simp only [scrubSplits, hs0, if_true]
        exact ih _ _ s c es hx hnd.2 hsp hc
          (by rw [scrubCats_cats_preserve hb dry path s0 catOrder cats bk (s, c) (Or.inl hne)]
              exact hcl)
      · simp only [scrubSplits, hs0, if_false]
        exact ih _ _ s c es hx hnd.2 hsp hc hcl

lemma scrubSplits_bk_reach (path : String) (splits : List String) :
    ∀ (ss : List String) (cats : CatMap) (bk : Backup) (s c : String) (es : List Entry)
      (n : String) (d : ImageFile),
      s ∈ ss → ss.Nodup → s ∈ splits → c ∈ catOrder →
      lookupCat cats (s, c) = some es →
      Entry.file n d ∈ es → flaggedE (Entry.file n d) = true →
      (es.map Entry.name).Nodup →
      lookupBk (scrubSplits true false path splits ss cats bk).bk.files (s, c, n)
        = some d := by
  intro ss
  induction ss with
  | nil => intro cats bk s c es n d hmem; simp at hmem
  | cons s0 ss ih =>
    intro cats bk s c es n d hmem hnd hsp hc hcl hfm hfl hnames
    rw [List.nodup_cons] at hnd
    rcases List.mem_cons.mp hmem with hx | hx
    · subst hx
      simp only [scrubSplits, hsp, if_true]
      rw [scrubSplits_bk_preserve true false path splits ss _ _ s c n hnd.1]
      exact scrubCats_bk_reach path s catOrder cats bk c es n d hc (by decide) hcl hfm hfl hnames
    · have hne : s ≠ s0 := fun heq => hnd.1 (heq ▸ hx)
      by_cases hs0 : s0 ∈ splits
      · simp only [scrubSplits, hs0, if_true]
        exact ih _ _ s c es n d hx hnd.2 hsp hc
          (by rw [scrubCats_cats_preserve true false path s0 catOrder cats bk (s, c) (Or.inl hne)]
              exact hcl)
          hfm hfl hnames
      · simp only [scrubSplits, hs0, if_false]
        exact ih _ _ s c es n d hx hnd.2 hsp hc hcl hfm hfl hnames

/-! ### Top-level lemmas about `process_dataset` -/

lemma process_dataset_processed (path : String) (hb dry : Bool) (ds : Dataset) (bk : Backup) :
    (process_dataset path hb dry ds bk).totalProcessed = dsProcessed ds := by
  unfold process_dataset dsProcessed
  exact scrubSplits_processed hb dry path ds.splits splitOrder ds.cats _ (by decide)

lemma process_dataset_removed (path : String) (hb dry : Bool) (ds : Dataset) (bk : Backup) :
    (process_dataset path hb dry ds bk).totalRemoved = dsFlagged ds := by
  unfold process_dataset dsFlagged
  exact scrubSplits_removed hb dry path ds.splits splitOrder ds.cats _ (by decide)

lemma process_dataset_splits (path : String) (hb dry : Bool) (ds : Dataset) (bk : Backup) :
    (process_dataset path hb dry ds bk).ds.splits = ds.splits := rfl

lemma process_dataset_dry_ds (path : String) (hb : Bool) (ds : Dataset) (bk : Backup) :
    (process_dataset path hb true ds bk).ds = ds := by
  unfold process_dataset
  simp only [Bool.not_true, Bool.and_false, if_neg (by simp : ¬(false = true))]
  rw [scrubSplits_dry_cats]

lemma process_dataset_dry_bk (path : String) (hb : Bool) (ds : Dataset) (bk : Backup) :
    (process_dataset path hb true ds bk).bk = bk := by
  unfold process_dataset
  simp only [Bool.not_true, Bool.and_false, if_neg (by simp : ¬(false = true))]
  rw [scrubSplits_dry_bk]

lemma process_dataset_noBackup_bk (path : String) (dry : Bool) (ds : Dataset) (bk : Backup) :
    (process_dataset path false dry ds bk).bk = bk := by
  unfold process_dataset
  simp only [Bool.false_and, if_neg (by simp : ¬(false = true))]
  rw [scrubSplits_noBackup_bk]

lemma process_dataset_reach (path : String) (hb dry : Bool) (ds : Dataset) (bk : Backup)
    (s c : String) (es : List Entry)
    (hs : s ∈ splitOrder) (hsp : s ∈ ds.splits) (hc : c ∈ catOrder)
    (hcl : lookupCat ds.cats (s, c) = some es) :
    lookupCat (process_dataset path hb dry ds bk).ds.cats (s, c)
      = some (entriesAfter dry es) := by
  unfold process_dataset
  exact scrubSplits_reach hb dry path ds.splits splitOrder ds.cats _ s c es hs (by decide)
    hsp hc hcl

lemma process_dataset_cats_none_key (path : String) (hb dry : Bool) (ds : Dataset)
    (bk : Backup) (key : CatKey) (h : lookupCat ds.cats key = none) :
    lookupCat (process_dataset path hb dry ds bk).ds.cats key = none := by
  unfold process_dataset
  exact scrubSplits_cats_none_key hb dry path ds.splits splitOrder ds.cats _ key h

lemma process_dataset_bk_reach (path : String) (ds : Dataset) (bk : Backup)
    (s c : String) (es : List Entry) (n : String) (d : ImageFile)
    (hs : s ∈ splitOrder) (hsp : s ∈ ds.splits) (hc : c ∈ catOrder)
    (hcl : lookupCat ds.cats (s, c) = some es)
    (hfm : Entry.file n d ∈ es) (hfl : flaggedE (Entry.file n d) = true)
    (hnames : (es.map Entry.name).Nodup) :
    lookupBk (process_dataset path true false ds bk).bk.files (s, c, n) = some d := by
  unfold process_dataset
  exact scrubSplits_bk_reach path ds.splits splitOrder ds.cats _ s c es n d hs (by decide)
    hsp hc hcl hfm hfl hnames

lemma process_dataset_removed_zero_bk (path : String) (ds : Dataset) (bk : Backup)
    (h : (process_dataset path true false ds bk).totalRemoved = 0) :
    (process_dataset path true false ds bk).bk
      = { rootExists := true, catDirs := bk.catDirs, files := bk.files } := by
  unfold process_dataset at h ⊢
  simp only [Bool.not_false, Bool.and_true, if_pos rfl] at h ⊢
  exact scrubSplits_removed_zero_bk true false path ds.splits splitOrder ds.cats _ h

/-! ### Log projections: per-category summaries and missing-directory warnings -/

def summaryKey : Event → Option CatKey
  | .catSummary s c _ _ => some (s, c)
  | _ => none

def warnPath : Event → Option String
  | .warnMissing p => some p
  | _ => none

/-- The `(split, category)` pairs the scrubber visits, in visit order: the
splits of `splitOrder` present at the root, and inside each the categories of
`catOrder` whose directory is present. -/
def visitedCats (ds : Dataset) : List CatKey :=
  splitOrder.flatMap fun s =>
    if s ∈ ds.splits then
      (catOrder.filter fun c => (lookupCat ds.cats (s, c)).isSome).map fun c => (s, c)
    else []

/-- The missing-directory warning paths, in emission order. -/
def missingWarnings (path : String) (ds : Dataset) : List String :=
  splitOrder.flatMap fun s =>
    if s ∈ ds.splits then
      (catOrder.filter fun c => !(lookupCat ds.cats (s, c)).isSome).map fun c =>
        catPathOf path s c
    else [joinPath path s]

lemma flatMap_congr_mem {α β : Type} (l : List α) (f g : α → List β)
    (h : ∀ a ∈ l, f a = g a) : l.flatMap f = l.flatMap g := by
  induction l with
  | nil => rfl
  | cons a l ih =>
    rw [List.flatMap_cons, List.flatMap_cons, h a (List.mem_cons_self a l),
      ih (fun x hx => h x (List.mem_cons_of_mem _ hx))]

lemma filter_congr_mem {α : Type} (l : List α) (p q : α → Bool)
    (h : ∀ a ∈ l, p a = q a) : l.filter p = l.filter q := by
  induction l with
  | nil => rfl
  | cons a l ih =>
    rw [List.filter_cons, List.filter_cons, h a (List.mem_cons_self a l),
      ih (fun x hx => h x (List.mem_cons_of_mem _ hx))]

lemma grayscaleLog_summaries (p : String) (d : ImageFile) :
    (grayscaleLog p d).filterMap summaryKey = [] := by
  cases d <;> simp [grayscaleLog, summaryKey]

lemma grayscaleLog_warns (p : String) (d : ImageFile) :
    (grayscaleLog p d).filterMap warnPath = [] := by
  cases d <;> simp [grayscaleLog, warnPath]

lemma scrubFiles_log_summaries (hb dry : Bool) (p s c : String) :
    ∀ (es : List Entry) (bk : Backup),
      ((scrubFiles hb dry p s c es bk).log).filterMap summaryKey = [] := by
  intro es
  induction es with
  | nil => intro bk; rfl
  | cons e es ih =>
    intro bk
    cases e with
    | dir n => simp [scrubFiles, ih bk]
    | file n d =>
      by_cases hv : extOf n ∈ validExtensions
      · by_cases hg : is_grayscale d = true
        · cases dry
          · cases hb <;>
              simp [scrubFiles, hv, hg, List.filterMap_append, List.filterMap_cons,
                grayscaleLog_summaries, summaryKey, ih]
          · simp [scrubFiles, hv, hg, List.filterMap_append, List.filterMap_cons,
              grayscaleLog_summaries, summaryKey, ih]
        · simp [scrubFiles, hv, hg, List.filterMap_append, grayscaleLog_summaries, ih]
      · simp [scrubFiles, hv, ih]

lemma scrubFiles_log_warns (hb dry : Bool) (p s c : String) :
    ∀ (es : List Entry) (bk : Backup),
      ((scrubFiles hb dry p s c es bk).log).filterMap warnPath = [] := by
  intro es
  induction es with
  | nil => intro bk; rfl
  | cons e es ih =>
    intro bk
    cases e with
    | dir n => simp [scrubFiles, ih bk]
    | file n d =>
      by_cases hv : extOf n ∈ validExtensions
      · by_cases hg : is_grayscale d = true
        · cases dry
          · cases hb <;>
              simp [scrubFiles, hv, hg, List.filterMap_append, List.filterMap_cons,
                grayscaleLog_warns, warnPath, ih]
          · simp [scrubFiles, hv, hg, List.filterMap_append, List.filterMap_cons,
              grayscaleLog_warns, warnPath, ih]
        · simp [scrubFiles, hv, hg, List.filterMap_append, grayscaleLog_warns, ih]
      · simp [scrubFiles, hv, ih]

lemma scrubCategory_log_summaries (hb dry : Bool) (path s c : String)
    (cats : CatMap) (bk : Backup) :
    ((scrubCategory hb dry path s c cats bk).log).filterMap summaryKey
      = if (lookupCat cats (s, c)).isSome then [(s, c)] else [] := by
  cases hcl : lookupCat cats (s, c) <;>
    simp [scrubCategory, hcl, summaryKey, List.filterMap_append, List.filterMap_cons,
      scrubFiles_log_summaries]

lemma scrubCategory_log_warns (hb dry : Bool) (path s c : String)
    (cats : CatMap) (bk : Backup) :
    ((scrubCategory hb dry path s c cats bk).log).filterMap warnPath
      = if (lookupCat cats (s, c)).isSome then [] else [catPathOf path s c] := by
  cases hcl : lookupCat cats (s, c) <;>
    simp [scrubCategory, hcl, warnPath, List.filterMap_append, List.filterMap_cons,
      scrubFiles_log_warns]

lemma scrubCats_log_summaries (hb dry : Bool) (path s : String) :
    ∀ (cs : List String) (cats : CatMap) (bk : Backup), cs.Nodup →
      ((scrubCats hb dry path s cs cats bk).log).filterMap summaryKey
        = (cs.filter fun c => (lookupCat cats (s, c)).isSome).map fun c => (s, c) := by
  intro cs
  induction cs with
  | nil => intro cats bk _; rfl
  | cons c0 cs ih =>
    intro cats bk hnd
    rw [List.nodup_cons] at hnd
    simp only [scrubCats, List.filterMap_append]
    rw [scrubCategory_log_summaries, ih _ _ hnd.2, List.filter_cons]
    have hcong : (cs.filter fun c =>
        (lookupCat (scrubCategory hb dry path s c0 cats bk).cats (s, c)).isSome)
        = cs.filter fun c => (lookupCat cats (s, c)).isSome := by
      apply filter_congr_mem
      intro a ha
      rw [scrubCategory_cats_preserve hb dry path s c0 cats bk (s, a)
        (by intro heq; injection heq with _ h2; exact hnd.1 (h2 ▸ ha))]
    rw [hcong]
    by_cases h0 : (lookupCat cats (s, c0)).isSome
    · simp [h0]
    · simp [h0]

lemma scrubCats_log_warns (hb dry : Bool) (path s : String) :
    ∀ (cs : List String) (cats : CatMap) (bk : Backup), cs.Nodup →
      ((scrubCats hb dry path s cs cats bk).log).filterMap warnPath
        = (cs.filter fun c => !(lookupCat cats (s, c)).isSome).map fun c =>
            catPathOf path s c := by
  intro cs
  induction cs with
  | nil => intro cats bk _; rfl
  | cons c0 cs ih =>
    intro cats bk hnd
    rw [List.nodup_cons] at hnd
    simp only [scrubCats, List.filterMap_append]
    rw [scrubCategory_log_warns, ih _ _ hnd.2, List.filter_cons]
    have hcong : (cs.filter fun c =>
        !(lookupCat (scrubCategory hb dry path s c0 cats bk).cats (s, c)).isSome)
        = cs.filter fun c => !(lookupCat cats (s, c)).isSome := by
      apply filter_congr_mem
      intro a ha
      rw [scrubCategory_cats_preserve hb dry path s c0 cats bk (s, a)
        (by intro heq; injection heq with _ h2; exact hnd.1 (h2 ▸ ha))]
    rw [hcong]
    by_cases h0 : (lookupCat cats (s, c0)).isSome
    · simp [h0]
    · simp [h0]

lemma scrubSplits_log_summaries (hb dry : Bool) (path : String) (splits : List String) :
    ∀ (ss : List String) (cats : CatMap) (bk : Backup), ss.Nodup →
      ((scrubSplits hb dry path splits ss cats bk).log).filterMap summaryKey
        = ss.flatMap fun s =>
            if s ∈ splits then
              (catOrder.filter fun c => (lookupCat cats (s, c)).isSome).map fun c => (s, c)
            else [] := by
  intro ss
  induction ss with
  | nil => intro cats bk _; rfl
  | cons s ss ih =>
    intro cats bk hnd
    rw [List.nodup_cons] at hnd
    rw [List.flatMap_cons]
    by_cases hs : s ∈ splits
    · simp only [scrubSplits, hs, if_true, List.filterMap_append]
      rw [scrubCats_log_summaries hb dry path s catOrder cats bk (by decide), ih _ _ hnd.2]
      congr 1
      apply flatMap_congr_mem
      intro a ha
      by_cases has : a ∈ splits
      · simp only [has, if_true]
        congr 1
        apply filter_congr_mem
        intro c _
        rw [scrubCats_cats_preserve hb dry path s catOrder cats bk (a, c)
          (Or.inl (fun heq => hnd.1 (heq ▸ ha)))]
      · simp [has]
    · simp only [scrubSplits, hs, if_false, List.filterMap_cons, summaryKey]
      rw [ih _ _ hnd.2]
      simp

lemma scrubSplits_log_warns (hb dry : Bool) (path : String) (splits : List String) :
    ∀ (ss : List String) (cats : CatMap) (bk : Backup), ss.Nodup →
      ((scrubSplits hb dry path splits ss cats bk).log).filterMap warnPath
        = ss.flatMap fun s =>
            if s ∈ splits then
              (catOrder.filter fun c => !(lookupCat cats (s, c)).isSome).map fun c =>
                catPathOf path s c
            else [joinPath path s] := by
  intro ss
  induction ss with
  | nil => intro cats bk _; rfl
  | cons s ss ih =>
    intro cats bk hnd
    rw [List.nodup_cons] at hnd
    rw [List.flatMap_cons]
    by_cases hs : s ∈ splits
    · simp only [scrubSplits, hs, if_true, List.filterMap_append]
      rw [scrubCats_log_warns hb dry path s catOrder cats bk (by decide), ih _ _ hnd.2]
      congr 1
      apply flatMap_congr_mem
      intro a ha
      by_cases has : a ∈ splits
      · simp only [has, if_true]
        congr 1
        apply filter_congr_mem
        intro c _
        rw [scrubCats_cats_preserve hb dry path s catOrder cats bk (a, c)
          (Or.inl (fun heq => hnd.1 (heq ▸ ha)))]
      · simp [has]
    · simp only [scrubSplits, hs, if_false, List.filterMap_cons, warnPath]
      rw [ih _ _ hnd.2]
      simp

lemma process_dataset_log_summaries (path : String) (hb dry : Bool)
    (ds : Dataset) (bk : Backup) :
    ((process_dataset path hb dry ds bk).log).filterMap summaryKey = visitedCats ds := by
  unfold process_dataset visitedCats
  simp only [List.filterMap_append, List.filterMap_cons, summaryKey]
  rw [scrubSplits_log_summaries hb dry path ds.splits splitOrder ds.cats _ (by decide)]
  cases dry <;> simp [summaryKey]

lemma process_dataset_log_warns (path : String) (hb dry : Bool)
    (ds : Dataset) (bk : Backup) :
    ((process_dataset path hb dry ds bk).log).filterMap warnPath
      = missingWarnings path ds := by
  unfold process_dataset missingWarnings
  simp only [List.filterMap_append, List.filterMap_cons, warnPath]
  rw [scrubSplits_log_warns hb dry path ds.splits splitOrder ds.cats _ (by decide)]
  cases dry <;> simp [warnPath]

/-! ### Counting inequalities and post-run cleanliness -/

lemma countFlagged_le_countValid (es : List Entry) :
    countFlagged es ≤ countValid es := by
  unfold countFlagged countValid
  induction es with
  | nil => simp
  | cons e es ih =>
    rw [List.filter_cons, List.filter_cons]
    by_cases hf : flaggedE e = true
    · have hv : validE e = true := by
        cases e with
        | dir n => simp [flaggedE] at hf
        | file n d =>
          simp only [flaggedE, Bool.and_eq_true, decide_eq_true_eq] at hf
          simp [validE, hf.1]
      simp only [hf, hv, if_true, List.length_cons]
      omega
    · by_cases hv : validE e = true
      · simp only [hf, hv, if_true, Bool.false_eq_true, if_false, List.length_cons]
        omega
      · simp only [hf, hv, Bool.false_eq_true, if_false]
        exact ih

lemma sum_map_le {α : Type} (l : List α) (f g : α → Nat)
    (h : ∀ a ∈ l, f a ≤ g a) : (l.map f).sum ≤ (l.map g).sum := by
  induction l with
  | nil => simp
  | cons a l ih =>
    simp only [List.map_cons, List.sum_cons]
    exact Nat.add_le_add (h a (List.mem_cons_self a l))
      (ih (fun x hx => h x (List.mem_cons_of_mem _ hx)))

lemma catCountF_le_catCountP (cats : CatMap) (s c : String) :
    catCountF cats s c ≤ catCountP cats s c := by
  unfold catCountF catCountP
  cases lookupCat cats (s, c) with
  | none => exact Nat.le_refl 0
  | some es => exact countFlagged_le_countValid es

lemma dsFlagged_le_dsProcessed (ds : Dataset) :
    dsFlagged ds ≤ dsProcessed ds := by
  unfold dsFlagged dsProcessed
  apply sum_map_le
  intro s _
  by_cases hs : s ∈ ds.splits
  · simp only [hs, if_true]
    apply sum_map_le
    intro c _
    exact catCountF_le_catCountP ds.cats s c
  · simp [hs]

lemma dsFlagged_after_run (path : String) (hb : Bool) (ds : Dataset) (bk : Backup) :
    dsFlagged (process_dataset path hb false ds bk).ds = 0 := by
  unfold dsFlagged
  apply List.sum_eq_zero
  intro x hx
  rw [List.mem_map] at hx
  obtain ⟨s, hs, rfl⟩ := hx
  rw [process_dataset_splits]
  by_cases hsp : s ∈ ds.splits
  · simp only [hsp, if_true]
    apply List.sum_eq_zero
    intro y hy
    rw [List.mem_map] at hy
    obtain ⟨c, hc, rfl⟩ := hy
    unfold catCountF
    cases hcl : lookupCat ds.cats (s, c) with
    | none => rw [process_dataset_cats_none_key path hb false ds bk (s, c) hcl]
    | some es =>
      rw [process_dataset_reach path hb false ds bk s c es hs hsp hc hcl]
      exact countFlagged_entriesAfter es
  · simp [hsp]

lemma process_dataset_summary_mem (path : String) (hb dry : Bool)
    (ds : Dataset) (bk : Backup) :
    Event.datasetSummary (process_dataset path hb dry ds bk).totalProcessed
        (process_dataset path hb dry ds bk).totalRemoved
      ∈ (process_dataset path hb dry ds bk).log := by
  unfold process_dataset
  simp

/-! ### Concrete example worlds used as witnesses and counterexamples -/

set_option maxRecDepth 20000

/-- An initially absent backup tree. -/
def emptyBackup : Backup := ⟨false, [], []⟩

/-- A one-file dataset whose only image is color (not grayscale). -/
def colorOnlyDs : Dataset :=
  ⟨["train"], [(("train", "rainy"), [Entry.file "a.png" (ImageFile.ok [⟨1, 2, 3⟩])])]⟩

/-- A one-file dataset whose only image is grayscale. -/
def grayOnlyDs : Dataset :=
  ⟨["train"], [(("train", "rainy"), [Entry.file "g.png" (ImageFile.ok [⟨5, 5, 5⟩])])]⟩

/-- A one-file dataset whose only image fails to decode. -/
def corruptDs : Dataset :=
  ⟨["train"],
    [(("train", "rainy"),
      [Entry.file "bad.png" (ImageFile.corrupt "cannot identify image file")])]⟩

/-- A backup tree left over from an earlier run, already holding a file named
`a.png` under `train/rainy`. -/
def staleBackup : Backup :=
  ⟨true, [("train", "rainy")],
    [(("train", "rainy", "a.png"), ImageFile.ok [⟨9, 9, 9⟩])]⟩

/-- A dataset holding a grayscale `train/rainy/a.png` whose name collides with
the file already present in `staleBackup`. -/
def collisionDs : Dataset :=
  ⟨["train"], [(("train", "rainy"), [Entry.file "a.png" (ImageFile.ok [⟨5, 5, 5⟩])])]⟩

/-! ### The claims -/

/-- C1: for every readable image, the classifier returns grayscale iff every
pixel among the first `min 100 totalPixelCount` pixels of the RGB-converted
image, in raster order, has equal R, G and B values; in particular an image
whose only channel-differing pixel sits at raster position 150 — beyond the
100-pixel sampling window — is classified grayscale. -/
theorem grayscale_iff_sampled_pixels_equal :
    (∀ pixels : List Pixel,
      is_grayscale (ImageFile.ok pixels) = true ↔
        ∀ p ∈ pixels.take (min 100 pixels.length), p.r = p.g ∧ p.g = p.b)
    ∧ is_grayscale (ImageFile.ok
        (List.replicate 150 ⟨7, 7, 7⟩ ++ [⟨1, 2, 3⟩])) = true := by
  constructor
  · intro pixels
    simp [is_grayscale, List.all_eq_true]
  · decide

theorem grayscale_iff_sampled_pixels_equal_witness :
    is_grayscale (ImageFile.ok [⟨5, 5, 5⟩]) = true :=
  (grayscale_iff_sampled_pixels_equal.1 [⟨5, 5, 5⟩]).mpr (by decide)

/-- C2: for every dataset and flagged (valid grayscale) file in a visited
category, a non-dry scrub with a backup moves it: it no longer exists at its
original `split/category` path and exists in the backup tree at
`split/category/filename` with its data intact; without a backup it is
deleted and lands nowhere (the backup filesystem is untouched). -/
theorem flagged_file_disposition
    (path : String) (ds : Dataset) (bk : Backup) (split cat : String)
    (es : List Entry) (n : String) (d : ImageFile)
    (hs : split ∈ splitOrder) (hsp : split ∈ ds.splits) (hc : cat ∈ catOrder)
    (hcl : lookupCat ds.cats (split, cat) = some es)
    (hmem : Entry.file n d ∈ es)
    (hv : extOf n ∈ validExtensions) (hg : is_grayscale d = true)
    (hnames : (es.map Entry.name).Nodup) :
    ((∃ es', lookupCat (process_dataset path true false ds bk).ds.cats (split, cat)
        = some es' ∧ ∀ e ∈ es', e.name ≠ n)
      ∧ lookupBk (process_dataset path true false ds bk).bk.files (split, cat, n)
          = some d)
    ∧ ((∃ es', lookupCat (process_dataset path false false ds bk).ds.cats (split, cat)
        = some es' ∧ ∀ e ∈ es', e.name ≠ n)
      ∧ (process_dataset path false false ds bk).bk = bk) := by
  have hfl : flaggedE (Entry.file n d) = true := by simp [flaggedE, hv, hg]
  refine ⟨⟨⟨entriesAfter false es, ?_, ?_⟩, ?_⟩, ⟨entriesAfter false es, ?_, ?_⟩, ?_⟩
  · exact process_dataset_reach path true false ds bk split cat es hs hsp hc hcl
  · exact entriesAfter_name_gone es n d hnames hmem hfl
  · exact process_dataset_bk_reach path ds bk split cat es n d hs hsp hc hcl hmem hfl hnames
  · exact process_dataset_reach path false false ds bk split cat es hs hsp hc hcl
  · exact entriesAfter_name_gone es n d hnames hmem hfl
  · exact process_dataset_noBackup_bk path false ds bk

theorem flagged_file_disposition_witness :
    lookupBk (process_dataset "data" true false grayOnlyDs emptyBackup).bk.files
      ("train", "rainy", "g.png") = some (ImageFile.ok [⟨5, 5, 5⟩]) :=
  (flagged_file_disposition "data" grayOnlyDs emptyBackup "train" "rainy"
    [Entry.file "g.png" (ImageFile.ok [⟨5, 5, 5⟩])] "g.png" (ImageFile.ok [⟨5, 5, 5⟩])
    (by decide) (by decide) (by decide) rfl (by decide) (by decide) (by decide)
    (by decide)).1.2

/-- C3: a dry run mutates nothing — the dataset and the backup filesystem are
returned exactly as given — while the run still counts the would-be-removed
files and prints a dataset summary carrying that count. -/
theorem dry_run_no_mutation (path : String) (hb : Bool) (ds : Dataset) (bk : Backup) :
    (process_dataset path hb true ds bk).ds = ds
    ∧ (process_dataset path hb true ds bk).bk = bk
    ∧ (process_dataset path hb true ds bk).totalRemoved = dsFlagged ds
    ∧ Event.datasetSummary (process_dataset path hb true ds bk).totalProcessed
        (process_dataset path hb true ds bk).totalRemoved
        ∈ (process_dataset path hb true ds bk).log :=
  ⟨process_dataset_dry_ds path hb ds bk, process_dataset_dry_bk path hb ds bk,
    process_dataset_removed path hb true ds bk,
    process_dataset_summary_mem path hb true ds bk⟩

/-- C4: a decode failure makes the classifier emit a diagnostic carrying the
path and the error message and return "not grayscale"; consequently a file
whose decode fails survives every scrub at its original location. -/
theorem decode_failure_fail_open :
    (∀ (path msg : String),
      is_grayscale (ImageFile.corrupt msg) = false
        ∧ grayscaleLog path (ImageFile.corrupt msg) = [Event.decodeError path msg])
    ∧ ∀ (path : String) (hb dry : Bool) (ds : Dataset) (bk : Backup)
        (split cat : String) (es : List Entry) (n msg : String),
        split ∈ splitOrder → split ∈ ds.splits → cat ∈ catOrder →
        lookupCat ds.cats (split, cat) = some es →
        Entry.file n (ImageFile.corrupt msg) ∈ es →
        ∃ es', lookupCat (process_dataset path hb dry ds bk).ds.cats (split, cat)
            = some es' ∧ Entry.file n (ImageFile.corrupt msg) ∈ es' := by
  constructor
  · intro path msg
    exact ⟨rfl, rfl⟩
  · intro path hb dry ds bk split cat es n msg hs hsp hc hcl hmem
    refine ⟨entriesAfter dry es,
      process_dataset_reach path hb dry ds bk split cat es hs hsp hc hcl, ?_⟩
    apply entriesAfter_keeps dry es _ hmem
    simp [flaggedE, is_grayscale]

theorem decode_failure_fail_open_witness :
    ∃ es', lookupCat (process_dataset "data" false false corruptDs emptyBackup).ds.cats
        ("train", "rainy") = some es'
      ∧ Entry.file "bad.png" (ImageFile.corrupt "cannot identify image file") ∈ es' :=
  decode_failure_fail_open.2 "data" false false corruptDs emptyBackup "train" "rainy"
    [Entry.file "bad.png" (ImageFile.corrupt "cannot identify image file")]
    "bad.png" "cannot identify image file"
    (by decide) (by decide) (by decide) rfl (by decide)

/-- C5: the code, not the claim — when a file of the same name already exists
at the backup destination, `shutil.move` silently overwrites it: after the
run the old backup data is gone, replaced by the newly moved file, and no
error is signalled (there is no error path in this branch of the code). -/
theorem backup_collision_overwrites :
    lookupBk staleBackup.files ("train", "rainy", "a.png")
        = some (ImageFile.ok [⟨9, 9, 9⟩])
    ∧ lookupBk (process_dataset "data" true false collisionDs staleBackup).bk.files
        ("train", "rainy", "a.png") = some (ImageFile.ok [⟨5, 5, 5⟩])
    ∧ ImageFile.ok [⟨9, 9, 9⟩] ≠ ImageFile.ok [⟨5, 5, 5⟩] := by
  decide

/-- C6: the scrubber visits exactly the present splits in the order
`train, val` and inside each the present categories in the order
`rainy, cloudy, sunshine, sunrise` (the per-category summaries appear in
exactly that order); every missing split or category directory yields a
warning whose path appears in the log in traversal order; the run completes
and its totals count only the directories that were present. -/
theorem traversal_order_and_warnings (path : String) (hb dry : Bool)
    (ds : Dataset) (bk : Backup) :
    ((process_dataset path hb dry ds bk).log).filterMap summaryKey = visitedCats ds
    ∧ ((process_dataset path hb dry ds bk).log).filterMap warnPath
        = missingWarnings path ds
    ∧ (process_dataset path hb dry ds bk).totalProcessed = dsProcessed ds
    ∧ (process_dataset path hb dry ds bk).totalRemoved = dsFlagged ds :=
  ⟨process_dataset_log_summaries path hb dry ds bk,
    process_dataset_log_warns path hb dry ds bk,
    process_dataset_processed path hb dry ds bk,
    process_dataset_removed path hb dry ds bk⟩

/-- C7: scrubbing twice in sequence with no backup and no dry run is
idempotent — the second run flags (removes) zero files, whatever paths and
backup states are supplied. -/
theorem scrub_idempotent (path1 path2 : String) (ds : Dataset) (bk1 bk2 : Backup) :
    (process_dataset path2 false false
        (process_dataset path1 false false ds bk1).ds bk2).totalRemoved = 0 := by
  rw [process_dataset_removed]
  exact dsFlagged_after_run path1 false ds bk1

/-- C8: per category, the processed count is at most the number of immediate
non-directory entries with a valid image extension and the removed count is
at most the processed count; the same bounds hold for the run totals. -/
theorem counts_bounded (hb dry : Bool) (p s c : String) (es : List Entry) (bk : Backup)
    (path : String) (ds : Dataset) (bk0 : Backup) :
    (scrubFiles hb dry p s c es bk).processed ≤ countValid es
    ∧ (scrubFiles hb dry p s c es bk).removed ≤ (scrubFiles hb dry p s c es bk).processed
    ∧ (process_dataset path hb dry ds bk0).totalRemoved
        ≤ (process_dataset path hb dry ds bk0).totalProcessed
    ∧ (process_dataset path hb dry ds bk0).totalProcessed ≤ dsProcessed ds := by
  refine ⟨?_, ?_, ?_, ?_⟩
  · rw [scrubFiles_processed]
  · rw [scrubFiles_processed, scrubFiles_removed]
    exact countFlagged_le_countValid es
  · rw [process_dataset_processed, process_dataset_removed]
    exact dsFlagged_le_dsProcessed ds
  · rw [process_dataset_processed]

/-- C9 counterexample: a non-dry run with a backup configured that finds zero
grayscale images still mutates the backup filesystem — it creates the backup
root directory up front — refuting the claim that no backup directory
(including the root) is created unless an image must be moved. -/
theorem backup_root_created_eagerly_counterexample :
    (process_dataset "data" true false colorOnlyDs emptyBackup).totalRemoved = 0
    ∧ (process_dataset "data" true false colorOnlyDs emptyBackup).bk ≠ emptyBackup
    ∧ (process_dataset "data" true false colorOnlyDs emptyBackup).bk.rootExists = true
    ∧ emptyBackup.rootExists = false := by
  decide

/-- C9 amended: the `split/category` sub-directories and files of the backup
tree are populated lazily — a run that flags zero grayscale images adds no
category directory and no file under the backup path — but the backup root
directory itself is created eagerly at the start of every non-dry run with a
backup configured. -/
theorem lazy_backup_subdirs_eager_root (path : String) (ds : Dataset) (bk : Backup)
    (h : (process_dataset path true false ds bk).totalRemoved = 0) :
    (process_dataset path true false ds bk).bk
      = { rootExists := true, catDirs := bk.catDirs, files := bk.files } :=
  process_dataset_removed_zero_bk path ds bk h

theorem lazy_backup_subdirs_eager_root_witness :
    (process_dataset "data" true false colorOnlyDs emptyBackup).bk
      = { rootExists := true, catDirs := emptyBackup.catDirs,
          files := emptyBackup.files } :=
  lazy_backup_subdirs_eager_root "data" colorOnlyDs emptyBackup (by decide)

/-- C10: when the dataset argument is not a directory the tool exits with
code 1 carrying an error message naming the path, and both the dataset and
the backup filesystem are returned untouched — the scrub never starts. -/
theorem invalid_dataset_root_fatal (path : String) (hb dry : Bool)
    (ds : Dataset) (bk : Backup) :
    main_run path false hb dry ds bk
      = (some 1, ds, bk, [Event.errorInvalidDir path]) := rfl
